import Mathlib

/-!
Verification development for the RepoBrief ingestion/retrieval pipeline.

The TypeScript sources are shallowly embedded: pure computations become Lean
functions over `String`, `Int`, `ℚ` and lists; remote calls (GitHub, Gemini,
Prisma) become explicit function parameters or state-passing; JavaScript 32-bit
integer coercions (`| 0`, `& hash`, `Math.imul`, `<<`) are modelled by an
explicit wrap into the signed 32-bit range.  `Math.sin` and `Math.sqrt` are
kept abstract as function parameters (their numeric values never decide any of
the properties below, only simple algebraic facts such as `sqrt 0 = 0`).
-/

set_option maxRecDepth 4000

namespace RepoBrief

/-- JavaScript `String.prototype.toLowerCase`, character by character
(identical on the ASCII data the repository handles). -/
def jsToLower (s : String) : String := ⟨s.data.map Char.toLower⟩

/-- JavaScript `haystack.includes(needle)`: substring containment. -/
def strIncludes (haystack needle : String) : Bool :=
  decide (List.IsInfix needle.data haystack.data)

/-- JavaScript signed 32-bit coercion (`| 0`, `& x`, `Math.imul` result). -/
def toInt32 (n : Int) : Int := (n + 2 ^ 31) % 2 ^ 32 - 2 ^ 31

/-- Character codes of a string (`Array.from(s)` / `charCodeAt`); the sources
only ever hash ASCII text, where code units and code points agree. -/
def jsChars (s : String) : List Int := s.data.map (fun c => Int.ofNat c.toNat)

/-! ## A stable sort modelling `Array.prototype.sort`

`Array.prototype.sort` is stable (ES2019): elements the comparator ties keep
their original relative order.  `stableSortBy before l` places `x` before `y`
exactly when `before x y` holds or when they tie and `x` came first. -/

/-- Insert `x` after every element that strictly precedes it. -/
def insertB (before : α → α → Bool) (x : α) : List α → List α
  | [] => [x]
  | y :: ys => if before y x then y :: insertB before x ys else x :: y :: ys

/-- Stable insertion sort with strict-precedence test `before`. -/
def stableSortBy (before : α → α → Bool) : List α → List α
  | [] => []
  | x :: xs => insertB before x (stableSortBy before xs)

theorem insertB_perm (before : α → α → Bool) (x : α) (l : List α) :
    (insertB before x l).Perm (x :: l) := by
  induction l with
  | nil => simp [insertB]
  | cons y ys ih =>
    simp only [insertB]
    split
    · exact ((ih.cons y).trans (List.Perm.swap x y ys))
    · exact List.Perm.refl _

theorem stableSortBy_perm (before : α → α → Bool) (l : List α) :
    (stableSortBy before l).Perm l := by
  induction l with
  | nil => simp [stableSortBy]
  | cons x xs ih =>
    exact (insertB_perm before x (stableSortBy before xs)).trans (ih.cons x)

theorem mem_stableSortBy (before : α → α → Bool) (l : List α) (a : α) :
    a ∈ stableSortBy before l ↔ a ∈ l :=
  (stableSortBy_perm before l).mem_iff

theorem pairwise_insertB {β : Type} [LinearOrder β] (key : α → β)
    (before : α → α → Bool) (hb : ∀ a b, before a b = true ↔ key a < key b)
    (x : α) (l : List α) (h : l.Pairwise (fun a b => key a ≤ key b)) :
    (insertB before x l).Pairwise (fun a b => key a ≤ key b) := by
  induction l with
  | nil => simp [insertB]
  | cons y ys ih =>
    rcases h with _ | ⟨hy, hys⟩
    simp only [insertB]
    split
    · rename_i hyx
      refine List.Pairwise.cons ?_ (ih hys)
      intro z hz
      rcases List.mem_cons.mp (((insertB_perm before x ys).mem_iff).mp hz) with rfl | hz
      · exact le_of_lt ((hb y z).mp hyx)
      · exact hy z hz
    · rename_i hyx
      have hxy : key x ≤ key y := by
        by_contra hlt
        exact hyx ((hb y x).mpr (lt_of_not_le hlt))
      refine List.Pairwise.cons ?_ (List.Pairwise.cons hy hys)
      intro z hz
      rcases List.mem_cons.mp hz with rfl | hz
      · exact hxy
      · exact le_trans hxy (hy z hz)

theorem pairwise_stableSortBy {β : Type} [LinearOrder β] (key : α → β)
    (before : α → α → Bool) (hb : ∀ a b, before a b = true ↔ key a < key b)
    (l : List α) :
    (stableSortBy before l).Pairwise (fun a b => key a ≤ key b) := by
  induction l with
  | nil => simp [stableSortBy]
  | cons x xs ih => exact pairwise_insertB key before hb x _ ih

/-! ### Stability: sorting by a key agrees with sorting by (key, original index) -/

/-- Pair every element with its position, starting at `n`. -/
def withIdx (n : Nat) : List α → List (Nat × α)
  | [] => []
  | x :: xs => (n, x) :: withIdx (n + 1) xs

theorem withIdx_map_snd (n : Nat) (l : List α) :
    (withIdx n l).map Prod.snd = l := by
  induction l generalizing n with
  | nil => rfl
  | cons x xs ih => simp [withIdx, ih]

theorem fst_le_of_mem_withIdx (n : Nat) (l : List α) (p : Nat × α)
    (hp : p ∈ withIdx n l) : n ≤ p.1 := by
  induction l generalizing n with
  | nil => simp [withIdx] at hp
  | cons x xs ih =>
    rcases List.mem_cons.mp hp with rfl | hp
    · exact Nat.le_refl n
    · exact Nat.le_trans (Nat.le_succ n) (ih (n + 1) hp)

theorem pairwise_fst_lt_withIdx (n : Nat) (l : List α) :
    (withIdx n l).Pairwise (fun p q => p.1 < q.1) := by
  induction l generalizing n with
  | nil => exact List.Pairwise.nil
  | cons x xs ih =>
    refine List.Pairwise.cons ?_ (ih (n + 1))
    intro q hq
    exact Nat.lt_of_lt_of_le (Nat.lt_succ_self n) (fst_le_of_mem_withIdx (n + 1) xs q hq)

theorem insertB_map (g : α → β) (bA : α → α → Bool) (bB : β → β → Bool)
    (hg : ∀ a b, bA a b = bB (g a) (g b)) (x : α) (l : List α) :
    (insertB bA x l).map g = insertB bB (g x) (l.map g) := by
  induction l with
  | nil => rfl
  | cons y ys ih =>
    simp only [insertB, List.map_cons, hg]
    split <;> simp_all [insertB]

theorem stableSortBy_map (g : α → β) (bA : α → α → Bool) (bB : β → β → Bool)
    (hg : ∀ a b, bA a b = bB (g a) (g b)) (l : List α) :
    (stableSortBy bA l).map g = stableSortBy bB (l.map g) := by
  induction l with
  | nil => rfl
  | cons x xs ih =>
    simp only [stableSortBy, List.map_cons, insertB_map g bA bB hg, ih]

theorem insertB_congr_of_lex {β : Type} [LinearOrder β] (key : α → β) (idx : α → Nat)
    (b1 b2 : α → α → Bool)
    (hb1 : ∀ a b, b1 a b = true ↔ key a < key b)
    (hb2 : ∀ a b, b2 a b = true ↔ key a < key b ∨ (key a = key b ∧ idx a < idx b))
    (x : α) (l : List α) (hfresh : ∀ y ∈ l, idx x < idx y) :
    insertB b1 x l = insertB b2 x l := by
  induction l with
  | nil => rfl
  | cons y ys ih =>
    have hxy : idx x < idx y := hfresh y (List.mem_cons_self y ys)
    have hsame : b1 y x = b2 y x := by
      by_cases h : key y < key x
      · rw [(hb1 y x).mpr h, (hb2 y x).mpr (Or.inl h)]
      · have h2 : ¬(key y < key x ∨ (key y = key x ∧ idx y < idx x)) := by
          rintro (hlt | ⟨_, hidx⟩)
          · exact h hlt
          · exact Nat.lt_asymm hxy hidx
        have e1 : b1 y x = false := by
          cases hv : b1 y x
          · rfl
          · exact absurd ((hb1 y x).mp hv) h
        have e2 : b2 y x = false := by
          cases hv : b2 y x
          · rfl
          · exact absurd ((hb2 y x).mp hv) h2
        rw [e1, e2]
    simp only [insertB, hsame]
    split
    · rw [ih (fun z hz => hfresh z (List.mem_cons_of_mem y hz))]
    · rfl

theorem stableSortBy_eq_of_lex {β : Type} [LinearOrder β] (key : α → β) (idx : α → Nat)
    (b1 b2 : α → α → Bool)
    (hb1 : ∀ a b, b1 a b = true ↔ key a < key b)
    (hb2 : ∀ a b, b2 a b = true ↔ key a < key b ∨ (key a = key b ∧ idx a < idx b))
    (l : List α) (hl : l.Pairwise (fun a b => idx a < idx b)) :
    stableSortBy b1 l = stableSortBy b2 l := by
  induction l with
  | nil => rfl
  | cons x xs ih =>
    rcases hl with _ | ⟨hx, hxs⟩
    simp only [stableSortBy, ih hxs]
    refine insertB_congr_of_lex key idx b1 b2 hb1 hb2 x _ ?_
    intro y hy
    exact hx y ((stableSortBy_perm b2 xs).mem_iff.mp hy)

/-! ## Summarization/Embedding client (`src/lib/gemini.ts`)

`summarizeCommit` and `generateEmbedding` wrap a remote Gemini call in a
`while (retries < MAX_RETRIES)` loop with `MAX_RETRIES = 3`; after the `k`-th
failed attempt the code sleeps `Math.pow(2, retries) * 1000` ms when
`retries < MAX_RETRIES` still holds, and otherwise returns a fallback value
from inside the `catch`.  The remote call is modelled as a function from the
attempt number to `Except Unit α`; the returned pair carries the result and
the list of backoff delays (in ms) actually slept. -/

/-- `Math.pow(2, retries) * 1000`: the backoff delay slept after failure
number `retries`. -/
def backoffDelay (retries : Nat) : Nat := 2 ^ retries * 1000

/-- One round of the retry loop; `fuel` bounds the remaining iterations
(`maxR - retries` at entry), `postLoop` is the dead-code return value placed
after the loop in the source. -/
def retryLoopAux (attempt : Nat → Except Unit α) (onExhaust postLoop : α)
    (maxR : Nat) : Nat → Nat → α × List Nat
  | 0, _ => (postLoop, [])
  | fuel + 1, retries =>
    match attempt retries with
    | .ok v => (v, [])
    | .error _ =>
      if retries + 1 < maxR then
        let rest := retryLoopAux attempt onExhaust postLoop maxR fuel (retries + 1)
        (rest.1, backoffDelay (retries + 1) :: rest.2)
      else (onExhaust, [])

/-- The full `while (retries < MAX_RETRIES)` loop starting at `retries = 0`. -/
def retryLoop (attempt : Nat → Except Unit α) (onExhaust postLoop : α)
    (maxR : Nat) : α × List Nat :=
  retryLoopAux attempt onExhaust postLoop maxR maxR 0

/-- `summarizeCommit`: 3 attempts, generic fallback summary on exhaustion. -/
def summarizeCommitRun (attempt : Nat → Except Unit String) : String × List Nat :=
  retryLoop attempt "Updated code with various improvements and fixes."
    "Code changes made to the repository." 3

/-- The message parts passed to `embedContent`:
`parts: [{ text: text || "empty text" }]` — exactly one part, with the empty
string replaced by the placeholder phrase. -/
def embedParts (text : String) : List String :=
  [if text = "" then "empty text" else text]

/-- The hash-seeded fallback built inside `generateEmbedding` on retry
exhaustion: for each of the 768 positions `i`,
`hash = Array.from(text || "fallback").reduce((h, c) => Math.imul(31, h) + c.charCodeAt(0) | 0, i + 1)`
and the component is `(hash % 200) / 100 - 1` (JavaScript `%` keeps the sign
of the dividend, i.e. truncated remainder). -/
def geminiFallbackEmbedding (text : String) : List ℚ :=
  (List.range 768).map (fun i =>
    let h := (jsChars (if text = "" then "fallback" else text)).foldl
      (fun h c => toInt32 (toInt32 (31 * h) + c)) (Int.ofNat (i + 1))
    ((h.tmod 200 : Int) : ℚ) / 100 - 1)

/-- `generateEmbedding`: each attempt calls the embedding API with
`embedParts text`; a response with an empty values array is thrown (and hence
retried just like a transport error); exhaustion falls back to
`geminiFallbackEmbedding text`.  The `return new Array(768).fill(0)` after the
loop is dead code. -/
def generateEmbeddingRun (api : List String → Nat → Except Unit (List ℚ))
    (text : String) : List ℚ × List Nat :=
  let attempt : Nat → Except Unit (List ℚ) := fun n =>
    match api (embedParts text) n with
    | .ok v => if v.length = 0 then .error () else .ok v
    | .error e => .error e
  retryLoop attempt (geminiFallbackEmbedding text) (List.replicate 768 0) 3

/-! ## The embedding-pipeline fallback (`src/lib/embeddingPipeline.ts`)

`createFallbackEmbedding` hashes the text with
`hash = ((hash << 5) - hash) + charCode; hash = hash & hash` (all 32-bit
truncations made explicit below) and fills 768 slots with
`seededRandom(textHash + i)` where
`seededRandom(seed) = frac(Math.sin(seed) * 10000)`.  `Math.sin` is a fixed
deterministic function of its argument; it is abstracted as the parameter
`sinF`, shared by all invocations. -/

/-- The string hash of `createFallbackEmbedding`. -/
def jsHashString (s : String) : Int :=
  (jsChars s).foldl (fun h c => toInt32 (toInt32 (h * 32) - h + c)) 0

/-- `x - Math.floor(x)`. -/
def jsFrac (x : ℚ) : ℚ := x - Int.floor x

/-- `createFallbackEmbedding` with `Math.sin` abstracted as `sinF`. -/
def createFallbackEmbedding (sinF : Int → ℚ) (text : String) : List ℚ :=
  let textHash := jsHashString text
  (List.range 768).map (fun (i : Nat) => jsFrac (sinF (textHash + (i : Int)) * 10000))

/-- The older uniform-random fallback at the `createProject` call site
(`embedding = Array(768).fill(0).map(() => Math.random())`): it reads 768
fresh values from the invocation's random stream. -/
def randomFallbackEmbedding (rng : Nat → ℚ) : List ℚ :=
  (List.range 768).map rng

theorem geminiFallbackEmbedding_length (text : String) :
    (geminiFallbackEmbedding text).length = 768 := by
  simp [geminiFallbackEmbedding]

theorem createFallbackEmbedding_length (sinF : Int → ℚ) (text : String) :
    (createFallbackEmbedding sinF text).length = 768 := by
  unfold createFallbackEmbedding
  simp only [List.length_map, List.length_range]

/-- Every value the retry loop can return: a successful attempt's value, the
exhaustion fallback, or the dead post-loop value. -/
theorem retryLoopAux_fst_cases (attempt : Nat → Except Unit α)
    (onExhaust postLoop : α) (maxR fuel retries : Nat) :
    (∃ k v, attempt k = .ok v ∧
      (retryLoopAux attempt onExhaust postLoop maxR fuel retries).1 = v) ∨
    (retryLoopAux attempt onExhaust postLoop maxR fuel retries).1 = onExhaust ∨
    (retryLoopAux attempt onExhaust postLoop maxR fuel retries).1 = postLoop := by
  induction fuel generalizing retries with
  | zero => right; right; rfl
  | succ fuel ih =>
    simp only [retryLoopAux]
    cases hA : attempt retries with
    | ok v => exact Or.inl ⟨retries, v, hA, rfl⟩
    | error e =>
      simp only
      split
      · rcases ih (retries + 1) with ⟨k, v, hk, hv⟩ | h | h
        · exact Or.inl ⟨k, v, hk, hv⟩
        · exact Or.inr (Or.inl h)
        · exact Or.inr (Or.inr h)
      · exact Or.inr (Or.inl rfl)

/-- The retry loop sleeps at most twice, 2000 ms then 4000 ms, when
`maxR = 3`. -/
theorem retryLoop_delays_prefix (attempt : Nat → Except Unit α)
    (onExhaust postLoop : α) :
    (retryLoop attempt onExhaust postLoop 3).2 <+: [2000, 4000] := by
  simp only [retryLoop, retryLoopAux]
  cases h0 : attempt 0 with
  | ok v => exact ⟨[2000, 4000], rfl⟩
  | error e =>
    simp only [backoffDelay]
    cases h1 : attempt 1 with
    | ok v => exact ⟨[4000], rfl⟩
    | error e =>
      simp only
      cases h2 : attempt 2 with
      | ok v => exact ⟨[], rfl⟩
      | error e => exact ⟨[], rfl⟩

theorem retryLoop_allFail (attempt : Nat → Except Unit α) (onExhaust postLoop : α)
    (h : ∀ k, k < 3 → attempt k = .error ()) :
    retryLoop attempt onExhaust postLoop 3 = (onExhaust, [2000, 4000]) := by
  simp [retryLoop, retryLoopAux, h 0 (by omega), h 1 (by omega), h 2 (by omega),
    backoffDelay]

/-- C1: the hash-seeded fallback embeddings (`createFallbackEmbedding` in the
embedding pipeline, and the retry-exhaustion fallback inside
`generateEmbedding`) are pure functions of the input text — two independent
invocations on the same string return identical vectors — and both vectors
have exactly 768 components.  (`Math.sin` is a fixed function, shared by all
invocations; neither fallback reads any random source.) -/
theorem fallback_embeddings_deterministic (sinF : Int → ℚ) (s : String)
    (v1 v2 w1 w2 : List ℚ)
    (h1 : v1 = createFallbackEmbedding sinF s) (h2 : v2 = createFallbackEmbedding sinF s)
    (h3 : w1 = geminiFallbackEmbedding s) (h4 : w2 = geminiFallbackEmbedding s) :
    v1 = v2 ∧ v1.length = 768 ∧ w1 = w2 ∧ w1.length = 768 := by
  subst h1 h2 h3 h4
  exact ⟨rfl, createFallbackEmbedding_length sinF s, rfl,
    geminiFallbackEmbedding_length s⟩

theorem fallback_embeddings_deterministic_witness :
    createFallbackEmbedding (fun _ => 0) "hello" = createFallbackEmbedding (fun _ => 0) "hello" ∧
    (createFallbackEmbedding (fun _ => 0) "hello").length = 768 ∧
    geminiFallbackEmbedding "hello" = geminiFallbackEmbedding "hello" ∧
    (geminiFallbackEmbedding "hello").length = 768 :=
  fallback_embeddings_deterministic (fun _ => 0) "hello" _ _ _ _ rfl rfl rfl rfl

/-- C2: `generateEmbedding` invokes the embedding API with exactly one message
part, substitutes the literal placeholder `"empty text"` for an empty input,
and — provided every successful API response is a 768-vector, as the embedding
model contract states — returns a vector of exactly 768 components on every
path (success, retry-exhaustion fallback, dead post-loop value); the function
is total, i.e. it never throws. -/
theorem generateEmbedding_one_part_768 (api : List String → Nat → Except Unit (List ℚ))
    (text : String)
    (hapi : ∀ ps n v, api ps n = .ok v → v.length = 768) :
    (embedParts text).length = 1 ∧
    (text = "" → embedParts text = ["empty text"]) ∧
    ((generateEmbeddingRun api text).1).length = 768 := by
  refine ⟨rfl, fun h => by simp [embedParts, h], ?_⟩
  unfold generateEmbeddingRun retryLoop
  rcases retryLoopAux_fst_cases
      (fun n => match api (embedParts text) n with
        | .ok v => if v.length = 0 then .error () else .ok v
        | .error e => .error e)
      (geminiFallbackEmbedding text) (List.replicate 768 0) 3 3 0 with
    ⟨k, v, hk, hv⟩ | h | h
  · rw [hv]
    revert hk
    cases hA : api (embedParts text) k with
    | ok w =>
      simp only
      split
      · intro hk; cases hk
      · intro hk
        cases hk
        exact hapi _ _ _ hA
    | error e => intro hk; cases hk
  · rw [h]; exact geminiFallbackEmbedding_length text
  · rw [h]; exact List.length_replicate 768 0

theorem generateEmbedding_one_part_768_witness :
    (embedParts "").length = 1 ∧ embedParts "" = ["empty text"] ∧
    ((generateEmbeddingRun (fun _ _ => .error ()) "").1).length = 768 :=
  have h := generateEmbedding_one_part_768 (fun _ _ => .error ()) ""
    (by intro ps n v hv; cases hv)
  ⟨h.1, h.2.1 rfl, h.2.2⟩

/-- C8 counterexample: when every remote attempt fails, the backoff delays
actually slept by `summarizeCommit` and `generateEmbedding` are 2000 ms and
4000 ms only — the claimed third 8-second delay never occurs (after the third
failed attempt the loop returns the fallback immediately). -/
theorem retry_backoff_claim_counterexample :
    (summarizeCommitRun (fun _ => .error ())).2 = [2000, 4000] ∧
    (summarizeCommitRun (fun _ => .error ())).2 ≠ [2000, 4000, 8000] ∧
    (generateEmbeddingRun (fun _ _ => .error ()) "text").2 = [2000, 4000] :=
  ⟨rfl, by decide, rfl⟩

/-- C8 amended: both `summarizeCommit` and `generateEmbedding` make up to 3
attempts; after the `k`-th failed attempt (`k = 1, 2`) they sleep
`2^k` seconds (2 s then 4 s) — never more than these two delays — and on
exhaustion return their fallback value (the fixed generic summary string, or
the deterministic hash-seeded fallback vector) instead of raising. -/
theorem retry_backoff_amended (aS : Nat → Except Unit String)
    (aE : List String → Nat → Except Unit (List ℚ)) (t : String)
    (hS : ∀ k, k < 3 → aS k = .error ())
    (hE : ∀ ps k, k < 3 → aE ps k = .error ()) :
    summarizeCommitRun aS =
      ("Updated code with various improvements and fixes.", [backoffDelay 1, backoffDelay 2]) ∧
    generateEmbeddingRun aE t =
      (geminiFallbackEmbedding t, [backoffDelay 1, backoffDelay 2]) ∧
    backoffDelay 1 = 2000 ∧ backoffDelay 2 = 4000 ∧
    (∀ a : Nat → Except Unit String, (summarizeCommitRun a).2 <+: [2000, 4000]) ∧
    (∀ (api : List String → Nat → Except Unit (List ℚ)) t',
      (generateEmbeddingRun api t').2 <+: [2000, 4000]) := by
  refine ⟨?_, ?_, rfl, rfl, ?_, ?_⟩
  · exact retryLoop_allFail aS _ _ hS
  · refine retryLoop_allFail _ _ _ ?_
    intro k hk
    simp [hE (embedParts t) k hk]
  · intro a; exact retryLoop_delays_prefix a _ _
  · intro api t'; exact retryLoop_delays_prefix _ _ _

theorem retry_backoff_amended_witness :
    summarizeCommitRun (fun _ => .error ()) =
      ("Updated code with various improvements and fixes.", [backoffDelay 1, backoffDelay 2]) ∧
    generateEmbeddingRun (fun _ _ => .error ()) "x" =
      (geminiFallbackEmbedding "x", [backoffDelay 1, backoffDelay 2]) ∧
    backoffDelay 1 = 2000 ∧ backoffDelay 2 = 4000 ∧
    (∀ a : Nat → Except Unit String, (summarizeCommitRun a).2 <+: [2000, 4000]) ∧
    (∀ (api : List String → Nat → Except Unit (List ℚ)) t',
      (generateEmbeddingRun api t').2 <+: [2000, 4000]) :=
  retry_backoff_amended (fun _ => .error ()) (fun _ _ => .error ()) "x"
    (fun _ _ => rfl) (fun _ _ _ => rfl)

/-! ## Repository loader (`src/lib/githubLoader.ts`) -/

/-- A loaded document: `pageContent` plus `metadata.source`. -/
structure RepoDoc where
  pageContent : String
  source : String
deriving DecidableEq, Repr

/-- The synthesized placeholder README returned when both branch attempts
fail: `# ${repoUrl.split('/').pop()}` followed by the fixed notice, with
`metadata.source = 'README.md'`. -/
def placeholderDoc (repoUrl : String) : RepoDoc :=
  { pageContent := "# " ++ (repoUrl.splitOn "/").getLastD "" ++
      "\n\nThis repository appears to be empty or inaccessible. Please add some files to this repository.",
    source := "README.md" }

/-- `loadGitHubRepository`: one `GithubRepoLoader` attempt per branch (the
loader configuration is identical apart from the branch name, so a single
`attempt` function applied to the branch models it); `main` first, on any
failure `master`, and if both fail a single placeholder README — every
exception is caught, so the function always returns a document list. -/
def loadGitHubRepository (attempt : String → Except String (List RepoDoc))
    (repoUrl : String) : List RepoDoc :=
  match attempt "main" with
  | .ok docs => docs
  | .error _ =>
    match attempt "master" with
    | .ok docs => docs
    | .error _ => [placeholderDoc repoUrl]

/-- C3: `loadGitHubRepository` tries `main` first and returns its documents on
success; on any `main` failure it retries the identically-configured loader
against `master`; if both attempts fail it returns exactly one synthesized
placeholder README instead of raising (the embedding is a total function:
loading never ends in an unhandled exception). -/
theorem loadGitHubRepository_branch_fallback
    (attempt : String → Except String (List RepoDoc)) (repoUrl : String) :
    (∀ docs, attempt "main" = .ok docs →
      loadGitHubRepository attempt repoUrl = docs) ∧
    (∀ e docs, attempt "main" = .error e → attempt "master" = .ok docs →
      loadGitHubRepository attempt repoUrl = docs) ∧
    (∀ e e', attempt "main" = .error e → attempt "master" = .error e' →
      loadGitHubRepository attempt repoUrl = [placeholderDoc repoUrl] ∧
      (loadGitHubRepository attempt repoUrl).length = 1) := by
  refine ⟨?_, ?_, ?_⟩
  · intro docs h; simp [loadGitHubRepository, h]
  · intro e docs h h'; simp [loadGitHubRepository, h, h']
  · intro e e' h h'; simp [loadGitHubRepository, h, h']

theorem loadGitHubRepository_branch_fallback_witness :
    loadGitHubRepository (fun _ => .error "404") "https://github.com/acme/repo" =
      [placeholderDoc "https://github.com/acme/repo"] ∧
    (loadGitHubRepository (fun _ => .error "404") "https://github.com/acme/repo").length = 1 :=
  (loadGitHubRepository_branch_fallback (fun _ => .error "404")
    "https://github.com/acme/repo").2.2 "404" "404" rfl rfl

/-! ## Per-file ingestion writes (C4)

Two ingestion paths exist.  `indexGitHubRepo` (`src/lib/embeddingPipeline.ts`)
checks `embedding.length !== 768` *before* any insert and `continue`s, writing
nothing at all for that file.  `createProject` (the tRPC project router)
inserts the row with its textual fields first and only guards the raw-SQL
embedding update with `embedding.length === 768`. -/

/-- What one file's processing leaves in the `SourceCodeEmbedding` table. -/
structure RowWrite where
  fileName : String
  summary : String
  sourceCode : String
  embedding : Option (List ℚ)
deriving DecidableEq, Repr

/-- Per-file write of `indexGitHubRepo`: a non-768 vector skips the whole row
(`continue` before the insert). -/
def indexFileStep (fileName sourceCode summary : String) (embedding : List ℚ) :
    Option RowWrite :=
  if embedding.length ≠ 768 then none
  else some ⟨fileName, summary, sourceCode, some embedding⟩

/-- Per-file write of `createProject`: the row is always inserted; only the
embedding update is conditional on length 768. -/
def createProjectFileStep (fileName sourceCode summary : String)
    (embedding : List ℚ) : RowWrite :=
  ⟨fileName, summary, sourceCode,
    if embedding.length = 768 then some embedding else none⟩

/-- C4 counterexample: in the `indexGitHubRepo` ingestion path a wrong-length
embedding does not merely skip the embedding write — the whole `FileRecord`,
textual fields included, is skipped (`continue` precedes the insert), so no
row at all is written for this file. -/
theorem indexFileStep_skips_row_counterexample :
    ([] : List ℚ).length ≠ 768 ∧
    indexFileStep "README.md" "# hello" "A readme." [] = none := by
  exact ⟨by decide, rfl⟩

/-- C4 amended: when the produced embedding is not exactly length 768, the
`createProject` ingestion path still inserts the `FileRecord` with its textual
fields and only skips the embedding write; the `indexGitHubRepo` path instead
skips the entire row, textual fields included. -/
theorem wrong_length_embedding_row_writes (fileName sourceCode summary : String)
    (embedding : List ℚ) (h : embedding.length ≠ 768) :
    createProjectFileStep fileName sourceCode summary embedding =
      { fileName := fileName, summary := summary, sourceCode := sourceCode,
        embedding := none } ∧
    indexFileStep fileName sourceCode summary embedding = none := by
  constructor
  · simp [createProjectFileStep, h]
  · simp [indexFileStep, h]

theorem wrong_length_embedding_row_writes_witness :
    createProjectFileStep "README.md" "# hello" "A readme." [] =
      { fileName := "README.md", summary := "A readme.", sourceCode := "# hello",
        embedding := none } ∧
    indexFileStep "README.md" "# hello" "A readme." [] = none :=
  wrong_length_embedding_row_writes "README.md" "# hello" "A readme." []
    (by decide)

/-! ## Ingestion processing order (C9)

`createProject` sorts the loaded documents with a comparator that puts
README-like names first (`fileA.toLowerCase().includes('readme')`), then
`package.json`-like names (`fileA.includes('package.json')`), then anything
under `/src/`, then everything else, and then processes *all* of them
(`const filesToProcess = prioritizedDocs`). -/

/-- `file.toLowerCase().includes('readme')`. -/
def docIsReadme (d : RepoDoc) : Bool := strIncludes (jsToLower d.source) "readme"

/-- `file.includes('package.json')` (case-sensitive in the source). -/
def docIsPackageJson (d : RepoDoc) : Bool := strIncludes d.source "package.json"

/-- `file.includes('/src/')` (case-sensitive in the source). -/
def docInSrcDir (d : RepoDoc) : Bool := strIncludes d.source "/src/"

/-- The comparator body of `docs.sort((a, b) => ...)` in `createProject`,
on the six boolean tests it performs. -/
def cmpBits (ra pa sa rb pb sb : Bool) : Int :=
  if ra && !rb then -1
  else if !ra && rb then 1
  else if pa && !pb then -1
  else if !pa && pb then 1
  else if sa && !sb then -1
  else if !sa && sb then 1
  else 0

/-- Numeric priority equivalent to the comparator: README-like 0–3,
`package.json`-like 4–5, `/src/` files 6, everything else 7. -/
def rankBits (r p s : Bool) : Nat :=
  (if r then 0 else 4) + (if p then 0 else 2) + (if s then 0 else 1)

theorem cmpBits_lt_iff (ra pa sa rb pb sb : Bool) :
    cmpBits ra pa sa rb pb sb < 0 ↔ rankBits ra pa sa < rankBits rb pb sb := by
  revert ra pa sa rb pb sb
  decide

/-- The `createProject` sort comparator. -/
def jsCompareDocs (a b : RepoDoc) : Int :=
  cmpBits (docIsReadme a) (docIsPackageJson a) (docInSrcDir a)
    (docIsReadme b) (docIsPackageJson b) (docInSrcDir b)

/-- The comparator's priority as a single number. -/
def docRank (d : RepoDoc) : Nat :=
  rankBits (docIsReadme d) (docIsPackageJson d) (docInSrcDir d)

/-- `const prioritizedDocs = docs.sort((a, b) => ...)`; `Array.prototype.sort`
is stable. -/
def prioritizeDocs (docs : List RepoDoc) : List RepoDoc :=
  stableSortBy (fun a b => decide (jsCompareDocs a b < 0)) docs

/-- `const filesToProcess = prioritizedDocs` — the unbounded production path
processes every loaded file. -/
def filesToProcess (docs : List RepoDoc) : List RepoDoc := prioritizeDocs docs

theorem jsCompareDocs_lt_iff (a b : RepoDoc) :
    decide (jsCompareDocs a b < 0) = true ↔ docRank a < docRank b := by
  simp only [jsCompareDocs, docRank, decide_eq_true_eq]
  exact cmpBits_lt_iff _ _ _ _ _ _

/-- The demo repository of the end-to-end scenario. -/
def docReadmeMd : RepoDoc := ⟨"# demo", "README.md"⟩

def docPackageJson : RepoDoc := ⟨"\x7b\x7d", "package.json"⟩

def docSrcIndexTs : RepoDoc := ⟨"export {}", "src/index.ts"⟩

/-- C9: ingestion processes loaded documents in the fixed priority order
(README-like, then `package.json`-like, then `/src/` files, then the rest):
the processed list is a permutation of the loaded documents (the unbounded
production path drops none of them) arranged in nondecreasing priority rank,
and for the 3-file repository `README.md`, `package.json`, `src/index.ts`
— in whatever order the loader returned it — the processing order is
`README.md`, then `package.json`, then `src/index.ts`. -/
theorem ingestion_priority_order :
    (∀ docs, (filesToProcess docs).Perm docs) ∧
    (∀ docs, (filesToProcess docs).Pairwise (fun a b => docRank a ≤ docRank b)) ∧
    filesToProcess [docReadmeMd, docPackageJson, docSrcIndexTs] =
      [docReadmeMd, docPackageJson, docSrcIndexTs] ∧
    filesToProcess [docReadmeMd, docSrcIndexTs, docPackageJson] =
      [docReadmeMd, docPackageJson, docSrcIndexTs] ∧
    filesToProcess [docPackageJson, docReadmeMd, docSrcIndexTs] =
      [docReadmeMd, docPackageJson, docSrcIndexTs] ∧
    filesToProcess [docPackageJson, docSrcIndexTs, docReadmeMd] =
      [docReadmeMd, docPackageJson, docSrcIndexTs] ∧
    filesToProcess [docSrcIndexTs, docReadmeMd, docPackageJson] =
      [docReadmeMd, docPackageJson, docSrcIndexTs] ∧
    filesToProcess [docSrcIndexTs, docPackageJson, docReadmeMd] =
      [docReadmeMd, docPackageJson, docSrcIndexTs] := by
  refine ⟨?_, ?_, ?_, ?_, ?_, ?_, ?_, ?_⟩
  · intro docs; exact stableSortBy_perm _ docs
  · intro docs
    exact pairwise_stableSortBy docRank _ jsCompareDocs_lt_iff docs
  all_goals decide

/-! ## Question answering (`src/app/api/qa/route.ts`)

The `POST` handler fetches the project's `SourceCodeEmbedding` rows
(`take: semanticMode ? undefined : 10`), scores them either by keyword
matching or by cosine similarity, sorts with
`.sort((a, b) => b.score - a.score)` (stable) and keeps the first five. -/

/-- A stored `SourceCodeEmbedding` row as the QA route reads it. -/
structure FileRecord where
  fileName : String
  summary : String
  sourceCode : String
  embedding : Option (List ℚ)
deriving DecidableEq, Repr

/-- JavaScript `s.split(/\s+/)` up to empty fragments: splitting at every
whitespace character.  A whitespace *run* yields empty fragments here where
`/\s+/` yields none, but every use filters by `length > 3`, which drops the
empty fragments, so the two agree after the filter. -/
def splitWsAux : List Char → List Char → List String
  | [], acc => [⟨acc.reverse⟩]
  | c :: cs, acc =>
    if c.isWhitespace then ⟨acc.reverse⟩ :: splitWsAux cs []
    else splitWsAux cs (c :: acc)

def jsSplitWs (s : String) : List String := splitWsAux s.data []

/-- `lowerQuestion.split(/\s+/).filter(w => w.length > 3)`. -/
def questionTokens (question : String) : List String :=
  (jsSplitWs (jsToLower question)).filter (fun w => w.length > 3)

/-- The per-file keyword relevance score: +5/+3/+2 for the whole lowercased
question appearing in the lowercased filename/summary/source, and +2/+1/+0.5
per token; the token loop accumulates with `score +=`. -/
def keywordScore (question : String) (f : FileRecord) : ℚ :=
  let lowerQuestion := jsToLower question
  let lowerFileName := jsToLower f.fileName
  let lowerSummary := jsToLower f.summary
  let lowerSourceCode := jsToLower f.sourceCode
  let base :=
    (if strIncludes lowerFileName lowerQuestion then (5 : ℚ) else 0) +
    (if strIncludes lowerSummary lowerQuestion then (3 : ℚ) else 0) +
    (if strIncludes lowerSourceCode lowerQuestion then (2 : ℚ) else 0)
  ((questionTokens question).map (fun w =>
    (if strIncludes lowerFileName w then (2 : ℚ) else 0) +
    (if strIncludes lowerSummary w then (1 : ℚ) else 0) +
    (if strIncludes lowerSourceCode w then (1 / 2 : ℚ) else 0))).foldl (· + ·) base

/-- `scored.sort((a, b) => b.score - a.score).slice(0, 5).map(item => item.file)`:
the comparator puts `a` first exactly when `b.score < a.score`; ties keep
fetch order (stable sort). -/
def selectTop5 (scoreFn : FileRecord → ℚ) (files : List FileRecord) :
    List FileRecord :=
  let scored := files.map (fun f => (f, scoreFn f))
  let sorted := stableSortBy (fun a b => decide (b.2 < a.2)) scored
  (sorted.take 5).map Prod.fst

/-- Keyword ("legacy") mode selection. -/
def keywordTopFiles (question : String) (files : List FileRecord) :
    List FileRecord :=
  selectTop5 (keywordScore question) files

/-- The stopword list of the *separate* fallback QA route (`[Simple QA]`,
`pages`-router handler); the keyword-mode scorer in `route.ts` does not use
any stopword list. -/
def stopWords : List String :=
  ["what", "where", "when", "which", "about", "does", "this", "that", "have",
   "from", "with", "file", "code", "function", "page", "button", "component"]

/-- The token set the claim describes: words longer than 3 characters
*excluding the stopword list*. -/
def questionTokensClaimed (question : String) : List String :=
  (jsSplitWs (jsToLower question)).filter
    (fun w => w.length > 3 && !(stopWords.contains w))

/-- Keyword scoring as the claim describes it (with stopword exclusion). -/
def keywordScoreClaimed (question : String) (f : FileRecord) : ℚ :=
  let lowerQuestion := jsToLower question
  let lowerFileName := jsToLower f.fileName
  let lowerSummary := jsToLower f.summary
  let lowerSourceCode := jsToLower f.sourceCode
  let base :=
    (if strIncludes lowerFileName lowerQuestion then (5 : ℚ) else 0) +
    (if strIncludes lowerSummary lowerQuestion then (3 : ℚ) else 0) +
    (if strIncludes lowerSourceCode lowerQuestion then (2 : ℚ) else 0)
  ((questionTokensClaimed question).map (fun w =>
    (if strIncludes lowerFileName w then (2 : ℚ) else 0) +
    (if strIncludes lowerSummary w then (1 : ℚ) else 0) +
    (if strIncludes lowerSourceCode w then (1 / 2 : ℚ) else 0))).foldl (· + ·) base

/-- Keyword-mode selection as the claim describes it. -/
def keywordTopFilesClaimed (question : String) (files : List FileRecord) :
    List FileRecord :=
  selectTop5 (keywordScoreClaimed question) files

/-! ### Semantic mode -/

/-- Cosine similarity of one stored file against the question embedding, with
`Math.sqrt` abstracted as `sq`: files with a missing or length-mismatched
vector score `-1`; so does any file for which either norm is zero (the
JavaScript `(normA && normB) ? dot / (normA * normB) : -1` truthiness test).
The `|| 0` after each square root only forces `NaN`/`0` to `0` and is the
identity in this exact-arithmetic model. -/
def simOf (sq : ℚ → ℚ) (qEmb : List ℚ) (f : FileRecord) : ℚ :=
  match f.embedding with
  | none => -1
  | some emb =>
    if emb.length ≠ qEmb.length then -1
    else
      let dot := (emb.zip qEmb).foldl (fun s p => s + p.1 * p.2) 0
      let normA := sq ((emb.map (fun v => v * v)).foldl (· + ·) 0)
      let normB := sq ((qEmb.map (fun v => v * v)).foldl (· + ·) 0)
      if normA ≠ 0 ∧ normB ≠ 0 then dot / (normA * normB) else -1

/-- Semantic-mode selection: same sort-and-slice applied to similarities. -/
def semanticTopFiles (sq : ℚ → ℚ) (qEmb : List ℚ) (files : List FileRecord) :
    List FileRecord :=
  selectTop5 (simOf sq qEmb) files

/-- `prisma.sourceCodeEmbedding.findMany({ where: { projectId }, take:
semanticMode ? undefined : 10 })`. -/
def fetchFilesForProject (semanticMode : Bool) (stored : List FileRecord) :
    List FileRecord :=
  if semanticMode then stored else stored.take 10

/-- The selection performed by the `POST` handler in either mode. -/
def qaSelectFiles (semanticMode : Bool) (sq : ℚ → ℚ) (qEmb : List ℚ)
    (question : String) (stored : List FileRecord) : List FileRecord :=
  let files := fetchFilesForProject semanticMode stored
  if semanticMode then semanticTopFiles sq qEmb files
  else keywordTopFiles question files

/-! ### C5: keyword-mode selection -/

theorem foldl_add_init (l : List ℚ) (b : ℚ) : l.foldl (· + ·) b = b + l.sum := by
  induction l generalizing b with
  | nil => simp
  | cons x xs ih =>
    simp only [List.foldl_cons, List.sum_cons, ih]
    ring

theorem sum_map_add (l : List α) (f g : α → ℚ) :
    (l.map (fun x => f x + g x)).sum = (l.map f).sum + (l.map g).sum := by
  induction l with
  | nil => simp
  | cons x xs ih =>
    simp only [List.map_cons, List.sum_cons, ih]
    ring

/-- Keyword scoring as the amended claim words it: for each of the three
fields (filename weight 5/2, summary 3/1, source 2/0.5), add the whole-question
weight if the lowercased question occurs in the lowercased field, plus the
token weight for each token occurring in it. -/
def keywordScoreSpec (question : String) (f : FileRecord) : ℚ :=
  ([(f.fileName, (5 : ℚ), (2 : ℚ)), (f.summary, 3, 1), (f.sourceCode, 2, 1 / 2)].map
    (fun t =>
      (if strIncludes (jsToLower t.1) (jsToLower question) then t.2.1 else 0) +
      ((questionTokens question).map
        (fun w => if strIncludes (jsToLower t.1) w then t.2.2 else 0)).sum)).sum

/-- Selection as the amended claim words it: pair each fetched file with its
fetch index, order by score descending with ties broken by ascending fetch
index (a total order, so stability is irrelevant here), and keep the first
five files. -/
def keywordTopFilesSpec (question : String) (files : List FileRecord) :
    List FileRecord :=
  let indexed := withIdx 0 (files.map (fun f => (f, keywordScoreSpec question f)))
  let ordered := stableSortBy
    (fun p q => decide (q.2.2 < p.2.2 ∨ (p.2.2 = q.2.2 ∧ p.1 < q.1))) indexed
  (ordered.take 5).map (fun p => p.2.1)

/-- A file whose only connection to the question `"does this"` is the
stopword `does` in its source text. -/
def fileStopwordHit : FileRecord := ⟨"a.ts", "", "it does x", none⟩

/-- A file matching nothing in the question. -/
def fileNoHit : FileRecord := ⟨"b.ts", "", "nothing here", none⟩

/-- C5 counterexample: the keyword-mode scorer has no stopword list — the
question `"does this"` consists solely of stopwords longer than 3 characters,
yet the route ranks the file containing `does` first (score 0.5 from the
token weight), whereas the claimed stopword-excluding selection scores both
files 0 and keeps fetch order.  The two selections differ. -/
theorem keyword_stopword_counterexample :
    keywordTopFiles "does this" [fileNoHit, fileStopwordHit] =
      [fileStopwordHit, fileNoHit] ∧
    keywordTopFilesClaimed "does this" [fileNoHit, fileStopwordHit] =
      [fileNoHit, fileStopwordHit] ∧
    keywordTopFiles "does this" [fileNoHit, fileStopwordHit] ≠
      keywordTopFilesClaimed "does this" [fileNoHit, fileStopwordHit] := by
  refine ⟨of_decide_eq_true (by with_unfolding_all rfl),
    of_decide_eq_true (by with_unfolding_all rfl),
    of_decide_eq_true (by with_unfolding_all rfl)⟩

/-- The sort-then-slice of the route equals the indexed lexicographic
description: sorting the (file, score) pairs stably by score descending and
slicing five is the same as ordering by (score descending, fetch index
ascending) and slicing five. -/
theorem selectTop5_eq_lexIdx (scoreFn : FileRecord → ℚ) (files : List FileRecord) :
    selectTop5 scoreFn files =
      ((stableSortBy
          (fun p q => decide (q.2.2 < p.2.2 ∨ (p.2.2 = q.2.2 ∧ p.1 < q.1)))
          (withIdx 0 (files.map (fun f => (f, scoreFn f))))).take 5).map
        (fun p => p.2.1) := by
  have hlex :
      stableSortBy (fun (p q : Nat × FileRecord × ℚ) => decide (q.2.2 < p.2.2))
        (withIdx 0 (files.map (fun f => (f, scoreFn f)))) =
      stableSortBy
        (fun p q => decide (q.2.2 < p.2.2 ∨ (p.2.2 = q.2.2 ∧ p.1 < q.1)))
        (withIdx 0 (files.map (fun f => (f, scoreFn f)))) := by
    refine stableSortBy_eq_of_lex (fun p => -p.2.2) Prod.fst _ _ ?_ ?_ _
      (pairwise_fst_lt_withIdx 0 _)
    · intro a b
      simp [neg_lt_neg_iff]
    · intro a b
      simp [neg_lt_neg_iff, neg_inj]
  have hmap :
      (stableSortBy (fun (p q : Nat × FileRecord × ℚ) => decide (q.2.2 < p.2.2))
        (withIdx 0 (files.map (fun f => (f, scoreFn f))))).map Prod.snd =
      stableSortBy (fun (a b : FileRecord × ℚ) => decide (b.2 < a.2))
        (files.map (fun f => (f, scoreFn f))) := by
    rw [stableSortBy_map Prod.snd _ (fun (a b : FileRecord × ℚ) => decide (b.2 < a.2))
      (fun a b => rfl), withIdx_map_snd]
  have h0 : selectTop5 scoreFn files =
      ((stableSortBy (fun (a b : FileRecord × ℚ) => decide (b.2 < a.2))
        (files.map (fun f => (f, scoreFn f)))).take 5).map Prod.fst := rfl
  rw [h0, ← hmap, ← hlex, ← List.map_take, List.map_map]
  rfl

/-- C5 amended: keyword-mode selection tokenizes the question into words
longer than 3 characters (with *no* stopword exclusion — the stopword list
exists only in the separate fallback QA route), scores each fetched file by
presence of the whole question string in its filename/summary/source
(weights 5/3/2) and of each token (weights 2/1/0.5), and returns the top 5 by
score descending with ties broken by original fetch order. -/
theorem keyword_selection_amended (question : String) (files : List FileRecord) :
    keywordTopFiles question files = keywordTopFilesSpec question files := by
  have hscore : ∀ f, keywordScore question f = keywordScoreSpec question f := by
    intro f
    unfold keywordScore keywordScoreSpec
    simp only [List.map_cons, List.map_nil, List.sum_cons, List.sum_nil,
      foldl_add_init, sum_map_add]
    ring
  unfold keywordTopFiles keywordTopFilesSpec
  rw [selectTop5_eq_lexIdx]
  have : files.map (fun f => (f, keywordScore question f)) =
      files.map (fun f => (f, keywordScoreSpec question f)) :=
    List.map_congr_left (fun f _ => by rw [hscore f])
  rw [this]

/-! ### C6: semantic-mode ranking of invalid vectors -/

/-- A sign-preserving stand-in for `Math.sqrt` in closed instances: it agrees
with the real square root at `0` (the only point whose exact value the guard
`(normA && normB)` inspects) and is positive on positive inputs. -/
def sqLinear : ℚ → ℚ := fun x => x

/-- A question embedding of the length `generateEmbedding` always returns. -/
def qEmbOnes : List ℚ := List.replicate 768 1

/-- A stored row with no embedding vector. -/
def fileNoVec : FileRecord := ⟨"legacy.ts", "no vector", "code a", none⟩

/-- A stored row with a valid 768-length vector — all zeros, so its norm is
zero and the route's truthiness guard also assigns it similarity `-1`. -/
def fileZeroVec : FileRecord :=
  ⟨"zero.ts", "zero vector", "code b", some (List.replicate 768 0)⟩

theorem foldl_mul_zipzero (l r : List ℚ) (a : ℚ) (h : ∀ x ∈ l, x = 0) :
    (l.zip r).foldl (fun s p => s + p.1 * p.2) a = a := by
  induction l generalizing r a with
  | nil => rfl
  | cons x xs ih =>
    cases r with
    | nil => rfl
    | cons y ys =>
      have hx : x = 0 := h x (List.mem_cons_self x xs)
      simp only [List.zip_cons_cons, List.foldl_cons, hx, zero_mul, add_zero]
      exact ih ys a (fun z hz => h z (List.mem_cons_of_mem x hz))

theorem foldl_sumsq_zero (l : List ℚ) (a : ℚ) (h : ∀ x ∈ l, x = 0) :
    (l.map (fun v => v * v)).foldl (· + ·) a = a := by
  induction l generalizing a with
  | nil => rfl
  | cons x xs ih =>
    have hx : x = 0 := h x (List.mem_cons_self x xs)
    simp only [List.map_cons, List.foldl_cons, hx, mul_zero, add_zero]
    exact ih a (fun z hz => h z (List.mem_cons_of_mem x hz))

/-- When the file's vector has zero norm, the `(normA && normB)` guard fails
and the similarity is `-1` — also on the valid matching-length path. -/
theorem simOf_eq_neg_one_of_normA_zero (sq : ℚ → ℚ) (qEmb emb : List ℚ)
    (f : FileRecord) (hf : f.embedding = some emb)
    (hA : sq ((emb.map (fun v => v * v)).foldl (· + ·) 0) = 0) :
    simOf sq qEmb f = -1 := by
  unfold simOf
  rw [hf]
  dsimp only
  by_cases hlen : emb.length ≠ qEmb.length
  · rw [if_pos hlen]
  · rw [if_neg hlen]
    simp only [hA, ne_eq, not_true_eq_false, false_and, if_false]

theorem simOf_fileZeroVec : simOf sqLinear qEmbOnes fileZeroVec = -1 :=
  simOf_eq_neg_one_of_normA_zero sqLinear qEmbOnes (List.replicate 768 0)
    fileZeroVec rfl
    (foldl_sumsq_zero _ _ (fun _ hx => List.eq_of_mem_replicate hx))

/-- C6 counterexample: with the question embedding of full length 768, a row
with no vector at all (`fileNoVec`, similarity −1) and a later-fetched row
with a valid 768-length vector (`fileZeroVec`, whose zero norm makes the
guard `(normA && normB)` fail, similarity −1) tie, and the stable sort keeps
the invalid row *above* the valid one: the selection is
`[fileNoVec, fileZeroVec]`, so an invalid row is not always ranked below
every valid matching-length row. -/
theorem semantic_invalid_rank_counterexample :
    fileNoVec.embedding = none ∧
    fileZeroVec.embedding = some (List.replicate 768 0) ∧
    (List.replicate 768 (0 : ℚ)).length = qEmbOnes.length ∧
    simOf sqLinear qEmbOnes fileNoVec = -1 ∧
    simOf sqLinear qEmbOnes fileZeroVec = -1 ∧
    semanticTopFiles sqLinear qEmbOnes [fileNoVec, fileZeroVec] =
      [fileNoVec, fileZeroVec] := by
  have h1 : simOf sqLinear qEmbOnes fileNoVec = -1 := rfl
  have h2 := simOf_fileZeroVec
  have hd : decide ((-1 : ℚ) < (-1 : ℚ)) = false := decide_eq_false (lt_irrefl _)
  refine ⟨rfl, rfl, by simp [qEmbOnes], h1, h2, ?_⟩
  have hsort : stableSortBy (fun (a b : FileRecord × ℚ) => decide (b.2 < a.2))
      ([fileNoVec, fileZeroVec].map (fun f => (f, simOf sqLinear qEmbOnes f))) =
      [(fileNoVec, -1), (fileZeroVec, -1)] := by
    simp only [List.map_cons, List.map_nil, h1, h2, stableSortBy, insertB, hd,
      Bool.false_eq_true, if_false]
  have hsel : semanticTopFiles sqLinear qEmbOnes [fileNoVec, fileZeroVec] =
      ((stableSortBy (fun (a b : FileRecord × ℚ) => decide (b.2 < a.2))
        ([fileNoVec, fileZeroVec].map
          (fun f => (f, simOf sqLinear qEmbOnes f)))).take 5).map Prod.fst := rfl
  rw [hsel, hsort]
  rfl

/-- C6 amended: semantic mode assigns similarity −1 to every stored file with
a missing or length-mismatched embedding vector, and the selection is ordered
by nonincreasing similarity, so an invalid file is never ranked above any
file whose similarity exceeds −1.  (A *valid* matching-length vector can
itself score −1 — e.g. a zero vector, or exact anti-alignment — and then an
earlier-fetched invalid file legitimately stays ahead of it.) -/
theorem semantic_invalid_scored_lowest (sq : ℚ → ℚ) (qEmb : List ℚ)
    (files : List FileRecord) :
    (∀ f, f.embedding = none → simOf sq qEmb f = -1) ∧
    (∀ f emb, f.embedding = some emb → emb.length ≠ qEmb.length →
      simOf sq qEmb f = -1) ∧
    (stableSortBy (fun (a b : FileRecord × ℚ) => decide (b.2 < a.2))
      (files.map (fun f => (f, simOf sq qEmb f)))).Pairwise
        (fun a b => b.2 ≤ a.2) := by
  refine ⟨?_, ?_, ?_⟩
  · intro f h; simp [simOf, h]
  · intro f emb h hlen; simp [simOf, h, hlen]
  · have hp := pairwise_stableSortBy (fun (p : FileRecord × ℚ) => -p.2)
      (fun a b => decide (b.2 < a.2))
      (fun a b => by simp [neg_lt_neg_iff])
      (files.map (fun f => (f, simOf sq qEmb f)))
    exact hp.imp (fun h => by simpa using h)

/-- A stored row whose vector has the wrong length. -/
def fileShortVec : FileRecord := ⟨"short.ts", "s", "c", some [1]⟩

theorem semantic_invalid_scored_lowest_witness :
    simOf sqLinear qEmbOnes fileNoVec = -1 ∧
    simOf sqLinear qEmbOnes fileShortVec = -1 ∧
    (stableSortBy (fun (a b : FileRecord × ℚ) => decide (b.2 < a.2))
      ([fileNoVec].map (fun f => (f, simOf sqLinear qEmbOnes f)))).Pairwise
        (fun a b => b.2 ≤ a.2) :=
  have h := semantic_invalid_scored_lowest sqLinear qEmbOnes [fileNoVec]
  ⟨h.1 fileNoVec rfl, h.2.1 fileShortVec [1] rfl (by simp [qEmbOnes]), h.2.2⟩

/-! ### C10: the keyword-mode fetch cap -/

theorem mem_of_mem_selectTop5 (scoreFn : FileRecord → ℚ) (files : List FileRecord)
    (f : FileRecord) (hf : f ∈ selectTop5 scoreFn files) : f ∈ files := by
  unfold selectTop5 at hf
  rcases List.mem_map.mp hf with ⟨p, hp, rfl⟩
  have hp2 : p ∈ stableSortBy (fun a b => decide (b.2 < a.2))
      (files.map (fun f => (f, scoreFn f))) := List.mem_of_mem_take hp
  have hp3 : p ∈ files.map (fun f => (f, scoreFn f)) :=
    (mem_stableSortBy _ _ _).mp hp2
  rcases List.mem_map.mp hp3 with ⟨g, hg, rfl⟩
  exact hg

/-- C10: in keyword (non-semantic) mode the QA route fetches at most the
first 10 stored rows (`take: 10`), so every file it can score or return is
among the first 10 fetched rows — a row beyond them is never returned no
matter how well it matches; in semantic mode all rows are fetched. -/
theorem qa_keyword_fetch_cap (question : String) (stored : List FileRecord)
    (sq : ℚ → ℚ) (qEmb : List ℚ) :
    fetchFilesForProject false stored = stored.take 10 ∧
    fetchFilesForProject true stored = stored ∧
    (∀ f, f ∈ qaSelectFiles false sq qEmb question stored →
      f ∈ stored.take 10) := by
  refine ⟨rfl, rfl, ?_⟩
  intro f hf
  exact mem_of_mem_selectTop5 (keywordScore question) (stored.take 10) f hf

theorem qa_keyword_fetch_cap_witness :
    fetchFilesForProject false [fileNoHit, fileStopwordHit] =
      [fileNoHit, fileStopwordHit].take 10 ∧
    fetchFilesForProject true [fileNoHit, fileStopwordHit] =
      [fileNoHit, fileStopwordHit] ∧
    fileStopwordHit ∈ [fileNoHit, fileStopwordHit].take 10 :=
  have h := qa_keyword_fetch_cap "does this" [fileNoHit, fileStopwordHit]
    sqLinear qEmbOnes
  ⟨h.1, h.2.1, h.2.2 fileStopwordHit
    (of_decide_eq_true (by with_unfolding_all rfl))⟩

/-! ## Commit puller (`src/lib/github.ts`)

`pullCommit` fetches the 20 most recent commits, filters out hashes already
stored *for this project*, summarizes each remaining commit's diff and
upserts by commit hash — the Prisma `where: { commitHash }` is global, not
scoped to the project, so an existing record under another project is updated
in place (its `projectId` is not touched by the `update` branch).  The remote
commit list and the diff summarizer are parameters; an unchanged repository
yields the same `remote` and (deterministic) `summarize` on both pulls. -/

structure RemoteCommit where
  hash : String
  message : String
  author : String
  date : String
  authorAvatar : Option String
deriving DecidableEq, Repr

structure CommitRecord where
  projectId : String
  commitHash : String
  message : String
  authorName : String
  authorAvatar : String
  committedAt : String
  summary : String
deriving DecidableEq, Repr

/-- `prisma.commit.findMany({ where: { projectId, commitHash: { in: … } } })`
membership test for one hash. -/
def storedForProject (store : List CommitRecord) (pid h : String) : Bool :=
  store.any (fun r => r.projectId == pid && r.commitHash == h)

/-- `filterOutUnprocessedCommits`: keep only the hashes with no record for
this project. -/
def filterOutUnprocessedCommits (store : List CommitRecord) (pid : String)
    (hashes : List String) : List String :=
  hashes.filter (fun h => !(storedForProject store pid h))

/-- The `update` branch of the upsert: every field except `projectId` and
`commitHash` is overwritten. -/
def updateFields (r : CommitRecord) (c : RemoteCommit) (summary : String) :
    CommitRecord :=
  { r with summary := summary, message := c.message, authorName := c.author,
           authorAvatar := c.authorAvatar.getD "", committedAt := c.date }

/-- The `create` branch of the upsert. -/
def createRecord (pid : String) (c : RemoteCommit) (summary : String) :
    CommitRecord :=
  ⟨pid, c.hash, c.message, c.author, c.authorAvatar.getD "", c.date, summary⟩

/-- Whether any record (of any project) carries this hash — the scope of the
global `commitHash` uniqueness key. -/
def hashPresent (store : List CommitRecord) (h : String) : Bool :=
  store.any (fun r => r.commitHash == h)

/-- `prisma.commit.upsert({ where: { commitHash } , update, create })`. -/
def upsertCommit (store : List CommitRecord) (pid : String) (c : RemoteCommit)
    (summary : String) : List CommitRecord :=
  if hashPresent store c.hash then
    store.map (fun r => if r.commitHash == c.hash then updateFields r c summary else r)
  else store ++ [createRecord pid c summary]

/-- `pullCommit` as a transformer of the commit store. -/
def pullCommit (summarize : String → String → String) (url pid : String)
    (remote : List RemoteCommit) (store : List CommitRecord) :
    List CommitRecord :=
  let newHashes := filterOutUnprocessedCommits store pid (remote.map (fun c => c.hash))
  let newCommits := remote.filter (fun c => newHashes.contains c.hash)
  newCommits.foldl (fun st c => upsertCommit st pid c (summarize url c.hash)) store

/-- The values the upsert writes for commit `c`. -/
def matchesCommit (r : CommitRecord) (c : RemoteCommit) (summary : String) : Prop :=
  r.summary = summary ∧ r.message = c.message ∧ r.authorName = c.author ∧
  r.authorAvatar = c.authorAvatar.getD "" ∧ r.committedAt = c.date

theorem updateEntry_fields (c : RemoteCommit) (smy : String) (r : CommitRecord) :
    ((if r.commitHash == c.hash then updateFields r c smy else r).projectId =
      r.projectId) ∧
    ((if r.commitHash == c.hash then updateFields r c smy else r).commitHash =
      r.commitHash) := by
  split <;> simp [updateFields]

theorem storedForProject_upsert_mono (store : List CommitRecord)
    (pid c smy pid' h) (hs : storedForProject store pid' h = true) :
    storedForProject (upsertCommit store pid c smy) pid' h = true := by
  rcases List.any_eq_true.mp hs with ⟨r, hr, hcond⟩
  unfold upsertCommit
  split
  · refine List.any_eq_true.mpr ?_
    refine ⟨if r.commitHash == c.hash then updateFields r c smy else r,
      List.mem_map_of_mem _ hr, ?_⟩
    rw [(updateEntry_fields c smy r).1, (updateEntry_fields c smy r).2]
    exact hcond
  · exact List.any_eq_true.mpr ⟨r, List.mem_append_left _ hr, hcond⟩

theorem hashPresent_upsert_mono (store : List CommitRecord) (pid c smy h)
    (hs : hashPresent store h = true) :
    hashPresent (upsertCommit store pid c smy) h = true := by
  rcases List.any_eq_true.mp hs with ⟨r, hr, hcond⟩
  unfold upsertCommit
  split
  · refine List.any_eq_true.mpr ?_
    refine ⟨if r.commitHash == c.hash then updateFields r c smy else r,
      List.mem_map_of_mem _ hr, ?_⟩
    rw [(updateEntry_fields c smy r).2]
    exact hcond
  · exact List.any_eq_true.mpr ⟨r, List.mem_append_left _ hr, hcond⟩

theorem hashPresent_upsert_self (store : List CommitRecord) (pid c smy) :
    hashPresent (upsertCommit store pid c smy) c.hash = true := by
  unfold upsertCommit
  split
  · rename_i hp
    rcases List.any_eq_true.mp hp with ⟨r, hr, hcond⟩
    refine List.any_eq_true.mpr
      ⟨if r.commitHash == c.hash then updateFields r c smy else r,
        List.mem_map_of_mem _ hr, ?_⟩
    rw [(updateEntry_fields c smy r).2]
    exact hcond
  · exact List.any_eq_true.mpr
      ⟨createRecord pid c smy, List.mem_append_right _ (List.mem_singleton_self _),
        by simp [createRecord]⟩

/-- Records whose hash differs from the upserted one pass through unchanged:
any record of the new store with hash `h ≠ c.hash` was already in the store. -/
theorem mem_store_of_mem_upsert_ne (store : List CommitRecord) (pid c smy h)
    (r : CommitRecord) (hr : r ∈ upsertCommit store pid c smy)
    (hh : r.commitHash = h) (hne : h ≠ c.hash) : r ∈ store := by
  unfold upsertCommit at hr
  split at hr
  · rcases List.mem_map.mp hr with ⟨r0, hr0, rfl⟩
    by_cases hbe : (r0.commitHash == c.hash) = true
    · exfalso
      rw [if_pos hbe] at hh
      have h1 : r0.commitHash = c.hash := by simpa using hbe
      have h2 : (updateFields r0 c smy).commitHash = r0.commitHash := rfl
      exact hne (by rw [← hh, h2, h1])
    · rw [if_neg hbe]
      exact hr0
  · rcases List.mem_append.mp hr with hr0 | hr0
    · exact hr0
    · rcases List.mem_singleton.mp hr0 with rfl
      exact absurd (show h = c.hash by
        have : c.hash = h := by simpa [createRecord] using hh
        exact this.symm) hne

/-- After upserting `c`, every record carrying `c.hash` holds exactly the
written values. -/
theorem matches_of_mem_upsert_self (store : List CommitRecord) (pid c smy)
    (r : CommitRecord) (hr : r ∈ upsertCommit store pid c smy)
    (hh : r.commitHash = c.hash) : matchesCommit r c smy := by
  unfold upsertCommit at hr
  split at hr
  · rcases List.mem_map.mp hr with ⟨r0, hr0, rfl⟩
    by_cases hbe : (r0.commitHash == c.hash) = true
    · rw [if_pos hbe]
      simp [updateFields, matchesCommit]
    · rw [if_neg hbe] at hh
      exact absurd hh (by simpa using hbe)
  · rename_i hnp
    rcases List.mem_append.mp hr with hr0 | hr0
    · exact absurd (List.any_eq_true.mpr ⟨r, hr0, by simp [hh]⟩) hnp
    · rcases List.mem_singleton.mp hr0 with rfl
      simp [createRecord, matchesCommit]

/-- An upsert whose target hash is present with exactly the written values is
the identity. -/
theorem upsertCommit_id (store : List CommitRecord) (pid c smy)
    (hp : hashPresent store c.hash = true)
    (hm : ∀ r ∈ store, r.commitHash = c.hash → matchesCommit r c smy) :
    upsertCommit store pid c smy = store := by
  unfold upsertCommit
  rw [if_pos hp]
  have hid : ∀ r ∈ store,
      (if r.commitHash == c.hash then updateFields r c smy else r) = r := by
    intro r hr
    by_cases hbe : (r.commitHash == c.hash) = true
    · rw [if_pos hbe]
      rcases hm r hr (by simpa using hbe) with ⟨h1, h2, h3, h4, h5⟩
      cases r
      simp only [updateFields] at h1 h2 h3 h4 h5 ⊢
      simp [h1, h2, h3, h4, h5]
    · rw [if_neg hbe]
  rw [List.map_congr_left hid]
  exact List.map_id store

/-- One iteration of the `for (const commit of newCommits)` loop. -/
def pullStep (summarize : String → String → String) (url pid : String)
    (st : List CommitRecord) (c : RemoteCommit) : List CommitRecord :=
  upsertCommit st pid c (summarize url c.hash)

theorem storedForProject_fold_mono (summarize : String → String → String)
    (url pid : String) (l : List RemoteCommit) (st : List CommitRecord)
    (pid' h : String) (hs : storedForProject st pid' h = true) :
    storedForProject (l.foldl (pullStep summarize url pid) st) pid' h = true := by
  induction l generalizing st with
  | nil => exact hs
  | cons c cs ih =>
    exact ih _ (storedForProject_upsert_mono st pid c _ pid' h hs)

theorem hashPresent_fold_mono (summarize : String → String → String)
    (url pid : String) (l : List RemoteCommit) (st : List CommitRecord)
    (h : String) (hs : hashPresent st h = true) :
    hashPresent (l.foldl (pullStep summarize url pid) st) h = true := by
  induction l generalizing st with
  | nil => exact hs
  | cons c cs ih => exact ih _ (hashPresent_upsert_mono st pid c _ h hs)

/-- Every processed commit's hash is present after the loop. -/
theorem hashPresent_fold_of_mem (summarize : String → String → String)
    (url pid : String) (l : List RemoteCommit) (c : RemoteCommit) :
    ∀ st : List CommitRecord, c ∈ l →
      hashPresent (l.foldl (pullStep summarize url pid) st) c.hash = true := by
  induction l with
  | nil => intro st hc; cases hc
  | cons d ds ih =>
    intro st hc
    rcases List.mem_cons.mp hc with rfl | hc
    · exact hashPresent_fold_mono summarize url pid ds _ c.hash
        (hashPresent_upsert_self st pid c _)
    · exact ih _ hc

/-- If every record carrying `c.hash` already matches the written values and
no commit of `l` carries that hash, the loop preserves the property. -/
theorem matches_fold_preserved (summarize : String → String → String)
    (url pid : String) (l : List RemoteCommit) (c : RemoteCommit)
    (smyc : String) :
    ∀ st : List CommitRecord, (∀ e ∈ l, e.hash ≠ c.hash) →
      (∀ r ∈ st, r.commitHash = c.hash → matchesCommit r c smyc) →
      ∀ r ∈ l.foldl (pullStep summarize url pid) st, r.commitHash = c.hash →
        matchesCommit r c smyc := by
  induction l with
  | nil => intro st _ hbase; exact hbase
  | cons d ds ih =>
    intro st hne hbase
    refine ih _ (fun e he => hne e (List.mem_cons_of_mem d he)) ?_
    intro r hr hh
    have hdc : c.hash ≠ d.hash := fun he =>
      hne d (List.mem_cons_self d ds) he.symm
    exact hbase r
      (mem_store_of_mem_upsert_ne st pid d _ c.hash r hr hh hdc) hh

/-- After the loop, every record carrying the hash of a processed commit
holds exactly the values written for it (the hashes being distinct). -/
theorem matches_fold_of_mem (summarize : String → String → String)
    (url pid : String) (l : List RemoteCommit) (c : RemoteCommit) :
    ∀ st : List CommitRecord, (l.map (fun c => c.hash)).Nodup → c ∈ l →
      ∀ r ∈ l.foldl (pullStep summarize url pid) st, r.commitHash = c.hash →
        matchesCommit r c (summarize url c.hash) := by
  induction l with
  | nil => intro st _ hc; cases hc
  | cons d ds ih =>
    intro st hnd hc
    rw [List.map_cons] at hnd
    have h1 : d.hash ∉ ds.map (fun c => c.hash) := (List.nodup_cons.mp hnd).1
    have h2 : (ds.map (fun c => c.hash)).Nodup := (List.nodup_cons.mp hnd).2
    rcases List.mem_cons.mp hc with rfl | hc
    · have hne : ∀ e ∈ ds, e.hash ≠ c.hash := by
        intro e he heq
        exact h1 (heq ▸ List.mem_map_of_mem _ he)
      exact matches_fold_preserved summarize url pid ds c _ _ hne
        (fun r hr hh => matches_of_mem_upsert_self st pid c _ r hr hh)
    · exact ih _ h2 hc

/-- A loop whose every iteration is the identity on the fixed store. -/
theorem foldl_pullStep_id (summarize : String → String → String)
    (url pid : String) (l : List RemoteCommit) (st : List CommitRecord)
    (hid : ∀ c ∈ l, upsertCommit st pid c (summarize url c.hash) = st) :
    l.foldl (pullStep summarize url pid) st = st := by
  induction l with
  | nil => rfl
  | cons c cs ih =>
    show cs.foldl (pullStep summarize url pid)
      (upsertCommit st pid c (summarize url c.hash)) = st
    rw [hid c (List.mem_cons_self c cs)]
    exact ih (fun d hd => hid d (List.mem_cons_of_mem c hd))

/-- C7: pulling commits twice in a row for an unchanged repository (same
remote commit list, deterministic summarizer, distinct commit hashes as
GitHub returns them) leaves the store of the first pull untouched: the second
pull produces the identical record list — hence the same `CommitRecord` count
and unchanged `summary`/`message` fields — and every hash already stored for
the project is excluded from the second pull's processing set (skipped
entirely, with no re-summarization and no duplicate rows). -/
theorem pullCommit_idempotent (summarize : String → String → String)
    (url pid : String) (remote : List RemoteCommit) (store : List CommitRecord)
    (hnd : (remote.map (fun c => c.hash)).Nodup) :
    pullCommit summarize url pid remote
        (pullCommit summarize url pid remote store) =
      pullCommit summarize url pid remote store ∧
    (pullCommit summarize url pid remote
        (pullCommit summarize url pid remote store)).length =
      (pullCommit summarize url pid remote store).length ∧
    (∀ h, h ∈ filterOutUnprocessedCommits
        (pullCommit summarize url pid remote store) pid
        (remote.map (fun c => c.hash)) →
      storedForProject (pullCommit summarize url pid remote store) pid h =
        false) := by
  have hskip : ∀ h, h ∈ filterOutUnprocessedCommits
      (pullCommit summarize url pid remote store) pid
      (remote.map (fun c => c.hash)) →
      storedForProject (pullCommit summarize url pid remote store) pid h =
        false := by
    intro h hh
    have := (List.mem_filter.mp hh).2
    simpa using this
  have hfold1 : pullCommit summarize url pid remote store =
      (remote.filter (fun c =>
        (filterOutUnprocessedCommits store pid
          (remote.map (fun c => c.hash))).contains c.hash)).foldl
        (pullStep summarize url pid) store := rfl
  have hfold2 : pullCommit summarize url pid remote
      (pullCommit summarize url pid remote store) =
      (remote.filter (fun c =>
        (filterOutUnprocessedCommits (pullCommit summarize url pid remote store)
          pid (remote.map (fun c => c.hash))).contains c.hash)).foldl
        (pullStep summarize url pid)
        (pullCommit summarize url pid remote store) := rfl
  have hnd1 : ((remote.filter (fun c =>
      (filterOutUnprocessedCommits store pid
        (remote.map (fun c => c.hash))).contains c.hash)).map
      (fun c => c.hash)).Nodup :=
    hnd.sublist ((List.filter_sublist remote).map (fun c => c.hash))
  have hmain : pullCommit summarize url pid remote
      (pullCommit summarize url pid remote store) =
      pullCommit summarize url pid remote store := by
    rw [hfold2]
    refine foldl_pullStep_id summarize url pid _ _ ?_
    intro c hc
    have hc2 := List.mem_filter.mp hc
    have hcr : c ∈ remote := hc2.1
    have hcontains2 : c.hash ∈ filterOutUnprocessedCommits
        (pullCommit summarize url pid remote store) pid
        (remote.map (fun c => c.hash)) := by
      simpa using hc2.2
    have hnot1 : ¬ storedForProject
        (pullCommit summarize url pid remote store) pid c.hash = true := by
      rw [hskip c.hash hcontains2]
      simp
    have hnot0 : ¬ storedForProject store pid c.hash = true := by
      intro h0
      exact hnot1 (by
        rw [hfold1]
        exact storedForProject_fold_mono summarize url pid _ store pid c.hash h0)
    have hc1 : c ∈ remote.filter (fun c =>
        (filterOutUnprocessedCommits store pid
          (remote.map (fun c => c.hash))).contains c.hash) := by
      refine List.mem_filter.mpr ⟨hcr, ?_⟩
      have : c.hash ∈ filterOutUnprocessedCommits store pid
          (remote.map (fun c => c.hash)) :=
        List.mem_filter.mpr ⟨List.mem_map_of_mem _ hcr, by simpa using hnot0⟩
      simpa using this
    have hp : hashPresent (pullCommit summarize url pid remote store)
        c.hash = true := by
      rw [hfold1]
      exact hashPresent_fold_of_mem summarize url pid _ c store hc1
    have hm : ∀ r ∈ pullCommit summarize url pid remote store,
        r.commitHash = c.hash → matchesCommit r c (summarize url c.hash) := by
      rw [hfold1]
      exact matches_fold_of_mem summarize url pid _ c store hnd1 hc1
    exact upsertCommit_id (pullCommit summarize url pid remote store)
      pid c (summarize url c.hash) hp hm
  exact ⟨hmain, by rw [hmain], hskip⟩

theorem pullCommit_idempotent_witness :
    pullCommit (fun _ _ => "s") "https://github.com/acme/repo" "p1"
        [⟨"h1", "m1", "a1", "d1", none⟩]
        (pullCommit (fun _ _ => "s") "https://github.com/acme/repo" "p1"
          [⟨"h1", "m1", "a1", "d1", none⟩] []) =
      pullCommit (fun _ _ => "s") "https://github.com/acme/repo" "p1"
        [⟨"h1", "m1", "a1", "d1", none⟩] [] ∧
    (pullCommit (fun _ _ => "s") "https://github.com/acme/repo" "p1"
        [⟨"h1", "m1", "a1", "d1", none⟩]
        (pullCommit (fun _ _ => "s") "https://github.com/acme/repo" "p1"
          [⟨"h1", "m1", "a1", "d1", none⟩] [])).length =
      (pullCommit (fun _ _ => "s") "https://github.com/acme/repo" "p1"
        [⟨"h1", "m1", "a1", "d1", none⟩] []).length :=
  have h := pullCommit_idempotent (fun _ _ => "s") "https://github.com/acme/repo"
    "p1" [⟨"h1", "m1", "a1", "d1", none⟩] [] (by simp)
  ⟨h.1, h.2.1⟩

end RepoBrief
